import Mathlib

/-!
Shallow embedding of the r9 kernel address-space layer:
`port/src/mem.rs` (typed physical/virtual addresses and half-open ranges)
and `aarch64/src/kmem.rs` (fixed-offset virtual/physical translation).

Conventions of the embedding:
* The target is aarch64, so both `u64` and `usize` are 64-bit machine
  integers.  They are modelled as `Nat` with an explicit `% 2 ^ 64`
  wherever the Rust arithmetic can wrap (release semantics of `+`, `-`,
  `wrapping_add`); where a claim assumes no overflow the corresponding
  theorem carries that bound as a hypothesis.
* Fallible paths (a failing `debug_assert!`, a `checked_add` / `checked_sub`
  returning `None`) are modelled with `Option`.
* Rust `Range` iteration combined with `step_by` is modelled as an explicit
  list of the visited addresses (`stepListGo` with a fuel argument that
  bounds the number of unit steps of the underlying range iterator, so the
  definition is structurally recursive and kernel-evaluable).
-/

/-- The number of values of a 64-bit machine integer (`u64` / aarch64 `usize`). -/
def U64_SIZE : Nat := 2 ^ 64

/-- Wrapping 64-bit subtraction `x - y` (release semantics of u64 `-`),
for `x < U64_SIZE`. -/
def u64_wrapping_sub (x y : Nat) : Nat :=
  (x + (U64_SIZE - y % U64_SIZE)) % U64_SIZE

/-- `VirtAddr(pub usize)` from port/src/mem.rs. -/
structure VirtAddr where
  addr : Nat
deriving DecidableEq

/-- `impl ops::Add<usize> for VirtAddr`: `VirtAddr(self.0 + offset)`
(wrapping in release builds). -/
def VirtAddr.add (va : VirtAddr) (offset : Nat) : VirtAddr :=
  ⟨(va.addr + offset) % U64_SIZE⟩

/-- `RegBlock` from port/src/fdt.rs, as used by mem.rs: an address and an
optional length. -/
structure RegBlock where
  addr : Nat
  len : Option Nat
deriving DecidableEq

/-- `VirtRange(pub Range<VirtAddr>)`.  The Rust `Range` field `end` is a Lean
keyword, so it is named `stop` here. -/
structure VirtRange where
  start : VirtAddr
  stop : VirtAddr
deriving DecidableEq

/-- `VirtRange::with_len`: `Self(start..start + len)`. -/
def VirtRange.with_len (start : VirtAddr) (len : Nat) : VirtRange :=
  ⟨start, start.add len⟩

/-- `Range::contains` specialised to `VirtAddr` ordering:
`start <= item && item < end`. -/
def VirtRange.contains (r : VirtRange) (a : VirtAddr) : Bool :=
  decide (r.start.addr ≤ a.addr) && decide (a.addr < r.stop.addr)

/-- `VirtRange::offset_addr`: add the offset to the start and return the
result only when it is contained in the half-open range. -/
def VirtRange.offset_addr (r : VirtRange) (offset : Nat) : Option VirtAddr :=
  let addr := r.start.add offset
  if r.contains addr then some addr else none

/-- `impl From<&RegBlock> for VirtRange`: start is the descriptor address,
length is the descriptor length or zero when absent (`r.len.unwrap_or(0)`). -/
def VirtRange.fromRegBlock (r : RegBlock) : VirtRange :=
  let start : VirtAddr := ⟨r.addr⟩
  ⟨start, start.add (r.len.getD 0)⟩

/-- `PhysAddr(pub u64)` from port/src/mem.rs. -/
structure PhysAddr where
  addr : Nat
deriving DecidableEq

/-- `impl ops::Add<u64> for PhysAddr`: `PhysAddr(self.0 + offset)`
(wrapping in release builds). -/
def PhysAddr.add (pa : PhysAddr) (offset : Nat) : PhysAddr :=
  ⟨(pa.addr + offset) % U64_SIZE⟩

/-- `PhysAddr::round_up`: `PhysAddr((self.0 + step - 1) & !(step - 1))` in
u64 arithmetic.  `self.0 + step` and the following `- 1` wrap mod `2^64`
(release semantics); the complement `!(step - 1)` of a u64 equals
`2^64 - 1 - (step - 1) = 2^64 - step` for `1 ≤ step < 2^64`.
The source `assert!(step.is_power_of_two())` restricts callers to
power-of-two steps; the theorems below carry that restriction as a
hypothesis. -/
def PhysAddr.round_up (pa : PhysAddr) (step : Nat) : PhysAddr :=
  ⟨(u64_wrapping_sub ((pa.addr + step) % U64_SIZE) 1) &&& (U64_SIZE - step)⟩

/-- `PhysAddr::round_down`: `PhysAddr(self.0 & !(step - 1))`, with the same
reading of `!(step - 1)` as in `PhysAddr.round_up`. -/
def PhysAddr.round_down (pa : PhysAddr) (step : Nat) : PhysAddr :=
  ⟨pa.addr &&& (U64_SIZE - step)⟩

/-- `PhysAddr::is_multiple_of`: `self.0.is_multiple_of(n)` (for `n = 0` Rust
returns `self == 0`, which `% 0` reproduces on `Nat`). -/
def PhysAddr.is_multiple_of (pa : PhysAddr) (n : Nat) : Bool :=
  pa.addr % n == 0

/-- `Step::forward_checked` for `PhysAddr`:
`startpa.0.checked_add(count as u64).map(PhysAddr)`. -/
def PhysAddr.forward_checked (startpa : PhysAddr) (count : Nat) : Option PhysAddr :=
  if startpa.addr + count < U64_SIZE then some ⟨startpa.addr + count⟩ else none

/-- `Step::backward_checked` for `PhysAddr`:
`startpa.0.checked_sub(count as u64).map(PhysAddr)`. -/
def PhysAddr.backward_checked (startpa : PhysAddr) (count : Nat) : Option PhysAddr :=
  if count ≤ startpa.addr then some ⟨startpa.addr - count⟩ else none

/-- `Step::steps_between` for `PhysAddr`: when `startpa <= endpa` the u64
difference always fits in the 64-bit `usize` of the aarch64 target, so the
`usize::try_from` in the source always succeeds and the count is exact;
otherwise the lower bound is 0 and the upper bound unknown. -/
def PhysAddr.steps_between (startpa endpa : PhysAddr) : Nat × Option Nat :=
  if startpa.addr ≤ endpa.addr then
    (endpa.addr - startpa.addr, some (endpa.addr - startpa.addr))
  else
    (0, none)

/-- `PhysRange(pub Range<PhysAddr>)`; the `end` field is named `stop`. -/
structure PhysRange where
  start : PhysAddr
  stop : PhysAddr
deriving DecidableEq

/-- `PhysRange::new`. -/
def PhysRange.new (start stop : PhysAddr) : PhysRange :=
  ⟨start, stop⟩

/-- `PhysRange::with_end`. -/
def PhysRange.with_end (start stop : Nat) : PhysRange :=
  ⟨⟨start⟩, ⟨stop⟩⟩

/-- `PhysRange::with_len`: `Self(PhysAddr(start)..PhysAddr(start + len as u64))`. -/
def PhysRange.with_len (start : Nat) (len : Nat) : PhysRange :=
  ⟨⟨start⟩, ⟨(start + len) % U64_SIZE⟩⟩

/-- `Range::contains` specialised to `PhysAddr` ordering. -/
def PhysRange.contains (r : PhysRange) (a : PhysAddr) : Bool :=
  decide (r.start.addr ≤ a.addr) && decide (a.addr < r.stop.addr)

/-- `PhysRange::offset_addr`. -/
def PhysRange.offset_addr (r : PhysRange) (offset : Nat) : Option PhysAddr :=
  let addr := r.start.add offset
  if r.contains addr then some addr else none

/-- `PhysRange::size`: `(self.0.end.addr() - self.0.start.addr()) as usize`
(wrapping u64 subtraction in release builds). -/
def PhysRange.size (r : PhysRange) : Nat :=
  u64_wrapping_sub r.stop.addr r.start.addr

/-- The addresses visited by the Rust iterator `(start..stop).step_by(step)`
over `PhysAddr`: `start, start + step, ...` while strictly below `stop`.
The fuel argument bounds the number of remaining unit steps of the
underlying range iterator (`stop - start` at the top level) and only makes
the recursion structural; with enough fuel the guard `start < stop`
terminates the walk exactly as the Rust iterator does. -/
def stepListGo : Nat → Nat → Nat → Nat → List Nat
  | 0, _, _, _ => []
  | fuel + 1, start, stop, step =>
    if start < stop ∧ 0 < step then
      start :: stepListGo fuel (start + step) stop step
    else
      []

/-- The list of addresses yielded by `(start..stop).step_by(step)`. -/
def stepList (start stop step : Nat) : List Nat :=
  stepListGo (stop - start) start stop step

/-- `PhysRange::step_by_rounded`: round the start down and the end up to the
step size and walk the resulting span in step-size increments. -/
def PhysRange.step_by_rounded (r : PhysRange) (step_size : Nat) : List PhysAddr :=
  (stepList ((r.start.round_down step_size).addr)
            ((r.stop.round_up step_size).addr) step_size).map PhysAddr.mk

/-- `PhysRange::add`: the bounding union
`Self(min(self.0.start, other.0.start)..max(self.0.end, other.0.end))`. -/
def PhysRange.add (r other : PhysRange) : PhysRange :=
  ⟨⟨min r.start.addr other.start.addr⟩, ⟨max r.stop.addr other.stop.addr⟩⟩

/-- Modelled from the spec: the constant `KZERO` (the "fixed kernel
virtual-base constant", spec section 6) is defined in the aarch64 `param`
module, which is not among the given sources; it is therefore modelled as an
explicit parameter `kzero` of the kmem functions below.

`from_virt_to_physaddr` from aarch64/src/kmem.rs: debug-asserts
`va.addr() >= KZERO` (modelled as the `none` branch) and returns
`PhysAddr::new((va.addr() - KZERO) as u64)`. -/
def from_virt_to_physaddr (kzero : Nat) (va : VirtAddr) : Option PhysAddr :=
  if kzero ≤ va.addr then some ⟨va.addr - kzero⟩ else none

/-- `physaddr_as_ptr_mut_offset_from_kzero` from aarch64/src/kmem.rs:
`(pa.addr() as usize).wrapping_add(KZERO) as *mut T`; the raw pointer is
modelled by its address. -/
def physaddr_as_ptr_mut_offset_from_kzero (kzero : Nat) (pa : PhysAddr) : Nat :=
  (pa.addr + kzero) % U64_SIZE

/-- `from_ptr_to_physaddr_offset_from_kzero` from aarch64/src/kmem.rs:
`from_virt_to_physaddr(VirtAddr::new(a.addr()))`. -/
def from_ptr_to_physaddr_offset_from_kzero (kzero : Nat) (a : Nat) : Option PhysAddr :=
  from_virt_to_physaddr kzero ⟨a⟩

/-! ## Helper lemmas -/

theorem PhysAddr.addr_inj (a b : PhysAddr) : a = b ↔ a.addr = b.addr := by
  cases a
  cases b
  simp

theorem and_two_pow_mask (x k w : Nat) (hx : x < 2 ^ w) (hk : k ≤ w) :
    x &&& (2 ^ w - 2 ^ k) = x / 2 ^ k * 2 ^ k := by
  have hmask : (2:Nat) ^ w - 2 ^ k = 2 ^ k * (2 ^ (w - k) - 1) := by
    rw [Nat.mul_sub_one, ← pow_add]
    congr 2
    omega
  have hdiv : x / 2 ^ k = x >>> k := (Nat.shiftRight_eq_div_pow x k).symm
  apply Nat.eq_of_testBit_eq
  intro i
  rw [Nat.testBit_and, hmask, Nat.testBit_mul_pow_two, Nat.testBit_two_pow_sub_one,
    Nat.mul_comm (x / 2 ^ k), hdiv, Nat.testBit_mul_pow_two, Nat.testBit_shiftRight]
  by_cases hik : k ≤ i
  · have hki : k + (i - k) = i := by omega
    rw [hki]
    by_cases hiw : i < w
    · have h1 : i - k < w - k := by omega
      simp [hik, h1, ge_iff_le]
    · have hx_bit : x.testBit i = false := by
        apply Nat.testBit_lt_two_pow
        calc x < 2 ^ w := hx
          _ ≤ 2 ^ i := Nat.pow_le_pow_right (by omega) (by omega)
      have h1 : ¬ (i - k < w - k) := by omega
      simp [hik, h1, hx_bit, ge_iff_le]
  · simp [hik, ge_iff_le]

theorem div_mul_eq_sub_mod (x s : Nat) : x / s * s = x - x % s := by
  have h := Nat.mod_add_div x s
  have h2 : s * (x / s) = x / s * s := Nat.mul_comm _ _
  omega

/-- Characterisation of `PhysAddr.round_down` at a power-of-two step. -/
theorem round_down_addr (a : PhysAddr) (k : Nat) (ha : a.addr < 2 ^ 64) (hk : k ≤ 64) :
    (a.round_down (2 ^ k)).addr = a.addr / 2 ^ k * 2 ^ k := by
  show a.addr &&& (U64_SIZE - 2 ^ k) = _
  have hu : U64_SIZE = 2 ^ 64 := rfl
  rw [hu, and_two_pow_mask a.addr k 64 ha hk]

/-- Characterisation of `PhysAddr.round_up` at a power-of-two step, in the
regime where the internal `self.0 + step - 1` does not overflow u64. -/
theorem round_up_addr (a : PhysAddr) (k : Nat) (ha : a.addr + 2 ^ k ≤ 2 ^ 64) (hk : k ≤ 64) :
    (a.round_up (2 ^ k)).addr = (a.addr + 2 ^ k - 1) / 2 ^ k * 2 ^ k := by
  have hs : (0:Nat) < 2 ^ k := Nat.two_pow_pos k
  have hinner : u64_wrapping_sub ((a.addr + 2 ^ k) % U64_SIZE) 1 = a.addr + 2 ^ k - 1 := by
    simp only [u64_wrapping_sub, U64_SIZE]
    omega
  show (u64_wrapping_sub ((a.addr + 2 ^ k) % U64_SIZE) 1) &&& (U64_SIZE - 2 ^ k) = _
  have hu : U64_SIZE = 2 ^ 64 := rfl
  rw [hinner, hu, and_two_pow_mask (a.addr + 2 ^ k - 1) k 64 (by omega) hk]

/-- Elements of `stepListGo` are exactly the multiples of the step in the
half-open span, provided the fuel covers the span and the start is aligned. -/
theorem mem_stepListGo (fuel : Nat) :
    ∀ start stop step x, stop - start ≤ fuel → 0 < step → step ∣ start →
      (x ∈ stepListGo fuel start stop step ↔ step ∣ x ∧ start ≤ x ∧ x < stop) := by
  induction fuel with
  | zero =>
    intro start stop step x hfuel hstep hdvd
    simp only [stepListGo, List.not_mem_nil, false_iff]
    rintro ⟨h1, h2, h3⟩
    omega
  | succ fuel ih =>
    intro start stop step x hfuel hstep hdvd
    simp only [stepListGo]
    by_cases h : start < stop
    · rw [if_pos ⟨h, hstep⟩, List.mem_cons,
        ih (start + step) stop step x (by omega) hstep (dvd_add hdvd dvd_rfl)]
      constructor
      · rintro (rfl | ⟨hd, hle, hlt⟩)
        · exact ⟨hdvd, Nat.le_refl _, h⟩
        · exact ⟨hd, by omega, hlt⟩
      · rintro ⟨hd, hle, hlt⟩
        by_cases hx : x = start
        · exact Or.inl hx
        · right
          refine ⟨hd, ?_, hlt⟩
          obtain ⟨m, rfl⟩ := hdvd
          obtain ⟨n, rfl⟩ := hd
          have hmn : m < n := by
            have hmn1 : m ≤ n := Nat.le_of_mul_le_mul_left hle hstep
            have : m ≠ n := fun hc => hx (by rw [hc])
            omega
          calc step * m + step = step * (m + 1) := by ring
            _ ≤ step * n := Nat.mul_le_mul (Nat.le_refl step) (by omega)
    · rw [if_neg (fun hc => h hc.1)]
      simp only [List.not_mem_nil, false_iff]
      rintro ⟨_, hle, hlt⟩
      omega

theorem le_of_mem_stepListGo (fuel : Nat) :
    ∀ start stop step x, x ∈ stepListGo fuel start stop step → start ≤ x := by
  induction fuel with
  | zero =>
    intro start stop step x hx
    simp [stepListGo] at hx
  | succ fuel ih =>
    intro start stop step x hx
    simp only [stepListGo] at hx
    split at hx
    · rcases List.mem_cons.mp hx with rfl | hmem
      · exact Nat.le_refl _
      · have := ih (start + step) stop step x hmem
        omega
    · simp at hx

theorem pairwise_stepListGo (fuel : Nat) :
    ∀ start stop step, 0 < step →
      List.Pairwise (fun a b => a < b) (stepListGo fuel start stop step) := by
  induction fuel with
  | zero =>
    intro start stop step hstep
    simp [stepListGo]
  | succ fuel ih =>
    intro start stop step hstep
    simp only [stepListGo]
    split
    · refine List.Pairwise.cons ?_ (ih _ _ _ hstep)
      intro y hy
      have := le_of_mem_stepListGo fuel (start + step) stop step y hy
      omega
    · exact List.Pairwise.nil

/-! ## Claims -/

/-- C1: translating the virtual address equal to the kernel base yields
physical address zero; any address below the base trips the fatal debug
assertion (modelled as `none`); any address at or above the base maps to the
difference from the base. -/
theorem claim_C1 (kzero : Nat) (va : VirtAddr) :
    (va.addr = kzero → from_virt_to_physaddr kzero va = some ⟨0⟩)
    ∧ (va.addr < kzero → from_virt_to_physaddr kzero va = none)
    ∧ (kzero ≤ va.addr → from_virt_to_physaddr kzero va = some ⟨va.addr - kzero⟩) := by
  refine ⟨fun h => ?_, fun h => ?_, fun h => ?_⟩
  · simp [from_virt_to_physaddr, h]
  · simp [from_virt_to_physaddr, Nat.not_le.mpr h]
  · simp [from_virt_to_physaddr, h]

theorem claim_C1_witness :
    from_virt_to_physaddr 4096 ⟨4096⟩ = some ⟨0⟩
    ∧ from_virt_to_physaddr 4096 ⟨4095⟩ = none
    ∧ from_virt_to_physaddr 4096 ⟨5000⟩ = some ⟨904⟩ :=
  ⟨(claim_C1 4096 ⟨4096⟩).1 rfl,
   (claim_C1 4096 ⟨4095⟩).2.1 (by decide),
   (claim_C1 4096 ⟨5000⟩).2.2 (by decide)⟩

/-- C2 counterexample: the claim quantifies over every `PhysAddr`, but at
`a = 2^64 - 1` with `s = 2` the internal sum `a + s - 1` wraps mod `2^64`,
`round_up` returns `PhysAddr(0)`, and `a <= round_up(a, s)` fails. -/
theorem claim_C2_counterexample :
    ((⟨2 ^ 64 - 1⟩ : PhysAddr).round_up 2 = ⟨0⟩)
    ∧ ¬ ((⟨2 ^ 64 - 1⟩ : PhysAddr).addr ≤ ((⟨2 ^ 64 - 1⟩ : PhysAddr).round_up 2).addr) := by
  decide

/-- C2 (amended): for every `PhysAddr` a and power-of-two u64 `s`, the
`round_down` clauses hold unconditionally, and the `round_up` clauses hold
provided the internal sum `a + s - 1` does not overflow u64
(`a.addr + s ≤ 2^64`): both roundings bracket `a`, both results are
multiples of `s`, and each fixes `a` exactly when `a` is a multiple of `s`. -/
theorem claim_C2 (a : PhysAddr) (s k : Nat) (hs : s = 2 ^ k) (hk : k < 64)
    (ha : a.addr < 2 ^ 64) :
    ((a.round_down s).addr ≤ a.addr
      ∧ s ∣ (a.round_down s).addr
      ∧ (a.round_down s = a ↔ s ∣ a.addr))
    ∧ (a.addr + s ≤ 2 ^ 64 →
        (a.addr ≤ (a.round_up s).addr
          ∧ s ∣ (a.round_up s).addr
          ∧ (a.round_up s = a ↔ s ∣ a.addr))) := by
  subst hs
  have hk64 : k ≤ 64 := by omega
  have hs0 : (0:Nat) < 2 ^ k := Nat.two_pow_pos k
  have hrd := round_down_addr a k ha hk64
  constructor
  · refine ⟨?_, ?_, ?_⟩
    · rw [hrd]
      exact Nat.div_mul_le_self _ _
    · rw [hrd]
      exact dvd_mul_left _ _
    · rw [PhysAddr.addr_inj, hrd]
      constructor
      · intro h
        exact h ▸ dvd_mul_left _ _
      · intro h
        exact Nat.div_mul_cancel h
  · intro hov
    have hru := round_up_addr a k hov hk64
    refine ⟨?_, ?_, ?_⟩
    · rw [hru]
      have hsub := div_mul_eq_sub_mod (a.addr + 2 ^ k - 1) (2 ^ k)
      have hmod := Nat.mod_lt (a.addr + 2 ^ k - 1) hs0
      omega
    · rw [hru]
      exact dvd_mul_left _ _
    · rw [PhysAddr.addr_inj, hru]
      constructor
      · intro h
        exact h ▸ dvd_mul_left _ _
      · intro h
        obtain ⟨m, hm⟩ := h
        have hz : a.addr % 2 ^ k = 0 := by
          rw [hm]
          exact Nat.mul_mod_right _ _
        have hsplit : a.addr + 2 ^ k - 1 = a.addr + (2 ^ k - 1) := by omega
        have hmod : (a.addr + 2 ^ k - 1) % 2 ^ k = 2 ^ k - 1 := by
          rw [hsplit, Nat.add_mod, hz, Nat.zero_add, Nat.mod_mod_of_dvd _ dvd_rfl,
            Nat.mod_eq_of_lt (by omega)]
        have hsub := div_mul_eq_sub_mod (a.addr + 2 ^ k - 1) (2 ^ k)
        omega

theorem claim_C2_witness :
    ((⟨1000⟩ : PhysAddr).round_down 4096).addr ≤ 1000
    ∧ (1000 : Nat) ≤ ((⟨1000⟩ : PhysAddr).round_up 4096).addr
    ∧ (4096 : Nat) ∣ ((⟨1000⟩ : PhysAddr).round_up 4096).addr := by
  have h := claim_C2 ⟨1000⟩ 4096 12 (by norm_num) (by omega) (by decide)
  have h2 := h.2 (by decide)
  exact ⟨h.1.1, h2.1, h2.2.1⟩

/-- C3: over a power-of-two step, the rounded walk enumerates, strictly
increasing, exactly the multiples of the step in the half-open span from the
rounded-down start to the rounded-up end; and on the concrete range
`[9000, 15000)` with step 4096 it yields exactly `8192, 12288`. -/
theorem claim_C3 (r : PhysRange) (s k : Nat) (hs : s = 2 ^ k) (hk : k < 64)
    (h1 : r.start.addr < 2 ^ 64) :
    (∀ x : PhysAddr, x ∈ r.step_by_rounded s ↔
        s ∣ x.addr ∧ (r.start.round_down s).addr ≤ x.addr
          ∧ x.addr < (r.stop.round_up s).addr)
    ∧ List.Pairwise (fun a b : PhysAddr => a.addr < b.addr) (r.step_by_rounded s)
    ∧ PhysRange.step_by_rounded ⟨⟨9000⟩, ⟨15000⟩⟩ 4096 = [⟨8192⟩, ⟨12288⟩] := by
  have hs0 : 0 < s := hs ▸ Nat.two_pow_pos k
  have hdvd : s ∣ (r.start.round_down s).addr := by
    subst hs
    rw [round_down_addr r.start k h1 (by omega)]
    exact dvd_mul_left _ _
  refine ⟨?_, ?_, by decide⟩
  · intro x
    show x ∈ (stepList ((r.start.round_down s).addr)
        ((r.stop.round_up s).addr) s).map PhysAddr.mk ↔ _
    rw [List.mem_map]
    unfold stepList
    constructor
    · rintro ⟨a, ha, rfl⟩
      exact (mem_stepListGo _ _ _ _ a (Nat.le_refl _) hs0 hdvd).mp ha
    · rintro ⟨hd, hle, hlt⟩
      exact ⟨x.addr, (mem_stepListGo _ _ _ _ x.addr (Nat.le_refl _) hs0 hdvd).mpr
        ⟨hd, hle, hlt⟩, rfl⟩
  · show List.Pairwise _ ((stepList ((r.start.round_down s).addr)
        ((r.stop.round_up s).addr) s).map PhysAddr.mk)
    rw [List.pairwise_map]
    exact pairwise_stepListGo _ _ _ _ hs0

theorem claim_C3_witness :
    ((⟨8192⟩ : PhysAddr) ∈ (⟨⟨9000⟩, ⟨15000⟩⟩ : PhysRange).step_by_rounded 4096)
    ∧ PhysRange.step_by_rounded ⟨⟨9000⟩, ⟨15000⟩⟩ 4096 = [⟨8192⟩, ⟨12288⟩] := by
  have h := claim_C3 ⟨⟨9000⟩, ⟨15000⟩⟩ 4096 12 (by norm_num) (by omega) (by decide)
  exact ⟨(h.1 ⟨8192⟩).mpr ⟨by norm_num, by decide, by decide⟩, h.2.2⟩

/-- C4: for a range built with `with_len(start, n)` with no overflow in
`start + n`, the size is `n` and `offset_addr` accepts exactly the offsets
strictly below `n` (returning `start + o`) and rejects every offset at or
above `n`; this holds for both `PhysRange` and `VirtRange`. -/
theorem claim_C4 (start n : Nat) (h : start + n < 2 ^ 64) :
    (PhysRange.with_len start n).size = n
    ∧ (∀ o, o < 2 ^ 64 →
        (o < n → (PhysRange.with_len start n).offset_addr o = some ⟨start + o⟩)
        ∧ (n ≤ o → (PhysRange.with_len start n).offset_addr o = none))
    ∧ (∀ o, o < 2 ^ 64 →
        (o < n → (VirtRange.with_len ⟨start⟩ n).offset_addr o = some ⟨start + o⟩)
        ∧ (n ≤ o → (VirtRange.with_len ⟨start⟩ n).offset_addr o = none)) := by
  refine ⟨?_, ?_, ?_⟩
  · simp only [PhysRange.with_len, PhysRange.size, u64_wrapping_sub, U64_SIZE]
    omega
  · intro o ho
    constructor
    · intro hlt
      simp only [PhysRange.with_len, PhysRange.offset_addr, PhysRange.contains,
        PhysAddr.add, U64_SIZE, Bool.and_eq_true, decide_eq_true_eq]
      rw [if_pos (by constructor <;> omega)]
      simp only [Option.some.injEq, PhysAddr.mk.injEq]
      omega
    · intro hge
      simp only [PhysRange.with_len, PhysRange.offset_addr, PhysRange.contains,
        PhysAddr.add, U64_SIZE, Bool.and_eq_true, decide_eq_true_eq]
      rw [if_neg (by omega)]
  · intro o ho
    constructor
    · intro hlt
      simp only [VirtRange.with_len, VirtRange.offset_addr, VirtRange.contains,
        VirtAddr.add, U64_SIZE, Bool.and_eq_true, decide_eq_true_eq]
      rw [if_pos (by constructor <;> omega)]
      simp only [Option.some.injEq, VirtAddr.mk.injEq]
      omega
    · intro hge
      simp only [VirtRange.with_len, VirtRange.offset_addr, VirtRange.contains,
        VirtAddr.add, U64_SIZE, Bool.and_eq_true, decide_eq_true_eq]
      rw [if_neg (by omega)]

theorem claim_C4_witness :
    (PhysRange.with_len 4096 256).size = 256
    ∧ (PhysRange.with_len 4096 256).offset_addr 0 = some ⟨4096⟩
    ∧ (PhysRange.with_len 4096 256).offset_addr 255 = some ⟨4351⟩
    ∧ (PhysRange.with_len 4096 256).offset_addr 256 = none
    ∧ (VirtRange.with_len ⟨4096⟩ 256).offset_addr 256 = none := by
  have h := claim_C4 4096 256 (by norm_num)
  exact ⟨h.1,
    ((h.2.1 0 (by norm_num)).1 (by omega)),
    ((h.2.1 255 (by norm_num)).1 (by omega)),
    ((h.2.1 256 (by norm_num)).2 (by omega)),
    ((h.2.2 256 (by norm_num)).2 (by omega))⟩

/-- C5: the union of two well-formed ranges is the bounding interval
`min(starts) .. max(ends)`; it contains every address of either input, is
commutative, and is idempotent on identical ranges. -/
theorem claim_C5 (r1 r2 : PhysRange) (h1 : r1.start.addr ≤ r1.stop.addr)
    (h2 : r2.start.addr ≤ r2.stop.addr) :
    r1.add r2 = ⟨⟨min r1.start.addr r2.start.addr⟩, ⟨max r1.stop.addr r2.stop.addr⟩⟩
    ∧ (∀ a : PhysAddr, (r1.contains a = true ∨ r2.contains a = true) →
        (r1.add r2).contains a = true)
    ∧ r1.add r2 = r2.add r1
    ∧ r1.add r1 = r1 := by
  refine ⟨rfl, ?_, ?_, ?_⟩
  · intro a hmem
    simp only [PhysRange.contains, PhysRange.add, Bool.and_eq_true,
      decide_eq_true_eq] at hmem ⊢
    rcases hmem with ⟨ha, hb⟩ | ⟨ha, hb⟩ <;> constructor <;> omega
  · simp only [PhysRange.add, PhysRange.mk.injEq, PhysAddr.mk.injEq]
    exact ⟨Nat.min_comm _ _, Nat.max_comm _ _⟩
  · simp only [PhysRange.add, Nat.min_self, Nat.max_self]

theorem claim_C5_witness :
    PhysRange.with_end 4096 8192 = (PhysRange.with_end 4096 8192).add
      (PhysRange.with_end 4096 8192)
    ∧ (PhysRange.with_end 4096 8192).add (PhysRange.with_end 12288 16384)
      = (PhysRange.with_end 12288 16384).add (PhysRange.with_end 4096 8192) := by
  have h := claim_C5 (PhysRange.with_end 4096 8192) (PhysRange.with_end 12288 16384)
    (by decide) (by decide)
  have hidem := (claim_C5 (PhysRange.with_end 4096 8192) (PhysRange.with_end 4096 8192)
    (by decide) (by decide)).2.2.2
  exact ⟨hidem.symm, h.2.2.1⟩

/-- C6: stepping a `PhysAddr` never wraps: forward stepping past the largest
u64 value yields `none` (and `some (a + n)` otherwise), backward stepping
below zero yields `none` (and `some (a - n)` otherwise), and
`steps_between` reports the exact count when `a <= b` and an unknown upper
bound otherwise. -/
theorem claim_C6 (a b : PhysAddr) (n : Nat) :
    (2 ^ 64 ≤ a.addr + n → a.forward_checked n = none)
    ∧ (a.addr + n < 2 ^ 64 → a.forward_checked n = some ⟨a.addr + n⟩)
    ∧ (a.addr < n → a.backward_checked n = none)
    ∧ (n ≤ a.addr → a.backward_checked n = some ⟨a.addr - n⟩)
    ∧ (a.addr ≤ b.addr →
        a.steps_between b = (b.addr - a.addr, some (b.addr - a.addr)))
    ∧ (b.addr < a.addr → a.steps_between b = (0, none)) := by
  refine ⟨fun h => ?_, fun h => ?_, fun h => ?_, fun h => ?_, fun h => ?_, fun h => ?_⟩
  · simp only [PhysAddr.forward_checked, U64_SIZE]
    rw [if_neg (by omega)]
  · simp only [PhysAddr.forward_checked, U64_SIZE]
    rw [if_pos (by omega)]
  · simp only [PhysAddr.backward_checked]
    rw [if_neg (by omega)]
  · simp only [PhysAddr.backward_checked]
    rw [if_pos (by omega)]
  · simp only [PhysAddr.steps_between]
    rw [if_pos (by omega)]
  · simp only [PhysAddr.steps_between]
    rw [if_neg (by omega)]

theorem claim_C6_witness :
    PhysAddr.forward_checked ⟨2 ^ 64 - 1⟩ 1 = none
    ∧ PhysAddr.forward_checked ⟨4096⟩ 4096 = some ⟨8192⟩
    ∧ PhysAddr.backward_checked ⟨4096⟩ 4097 = none
    ∧ PhysAddr.backward_checked ⟨4096⟩ 96 = some ⟨4000⟩
    ∧ PhysAddr.steps_between ⟨4096⟩ ⟨8192⟩ = (4096, some 4096)
    ∧ PhysAddr.steps_between ⟨8192⟩ ⟨4096⟩ = (0, none) := by
  refine ⟨(claim_C6 ⟨2 ^ 64 - 1⟩ ⟨0⟩ 1).1 (by decide),
    (claim_C6 ⟨4096⟩ ⟨0⟩ 4096).2.1 (by decide),
    (claim_C6 ⟨4096⟩ ⟨0⟩ 4097).2.2.1 (by decide),
    (claim_C6 ⟨4096⟩ ⟨0⟩ 96).2.2.2.1 (by decide),
    (claim_C6 ⟨4096⟩ ⟨8192⟩ 0).2.2.2.2.1 (by decide),
    (claim_C6 ⟨8192⟩ ⟨4096⟩ 0).2.2.2.2.2 (by decide)⟩

/-- C7: addition then subtraction of the same offset round-trips on
`PhysAddr` when the addition does not overflow, both on the raw address and
through the checked backward step of the `Step` implementation. -/
theorem claim_C7 (a : PhysAddr) (o : Nat) (h : a.addr + o < 2 ^ 64) :
    PhysAddr.mk ((a.add o).addr - o) = a
    ∧ (a.add o).backward_checked o = some a := by
  constructor
  · rw [PhysAddr.addr_inj]
    show (a.addr + o) % U64_SIZE - o = a.addr
    simp only [U64_SIZE]
    omega
  · simp only [PhysAddr.backward_checked, PhysAddr.add, U64_SIZE]
    rw [if_pos (by omega)]
    rw [Option.some.injEq, PhysAddr.addr_inj]
    show (a.addr + o) % 2 ^ 64 - o = a.addr
    omega

theorem claim_C7_witness :
    PhysAddr.mk (((⟨4096⟩ : PhysAddr).add 256).addr - 256) = ⟨4096⟩
    ∧ ((⟨4096⟩ : PhysAddr).add 256).backward_checked 256 = some ⟨4096⟩ :=
  claim_C7 ⟨4096⟩ 256 (by norm_num)

/-- C8: the two fixed-offset translation directions are mutually inverse.
Converting a physical address to its kernel pointer and back recovers it
when the pointer computation does not wrap, and translating a virtual
address at or above the base to physical and then back to a pointer
recovers its raw address. -/
theorem claim_C8 (kzero : Nat) (pa : PhysAddr) (va : VirtAddr) :
    (pa.addr + kzero < 2 ^ 64 →
      from_ptr_to_physaddr_offset_from_kzero kzero
        (physaddr_as_ptr_mut_offset_from_kzero kzero pa) = some pa)
    ∧ (kzero ≤ va.addr → va.addr < 2 ^ 64 →
      (from_virt_to_physaddr kzero va).map
        (physaddr_as_ptr_mut_offset_from_kzero kzero) = some va.addr) := by
  constructor
  · intro h
    simp only [from_ptr_to_physaddr_offset_from_kzero, from_virt_to_physaddr,
      physaddr_as_ptr_mut_offset_from_kzero, U64_SIZE]
    rw [if_pos (show kzero ≤ (pa.addr + kzero) % 2 ^ 64 by omega)]
    rw [Option.some.injEq, PhysAddr.addr_inj]
    show (pa.addr + kzero) % 2 ^ 64 - kzero = pa.addr
    omega
  · intro h1 h2
    simp only [from_virt_to_physaddr, physaddr_as_ptr_mut_offset_from_kzero, U64_SIZE]
    rw [if_pos h1]
    show some ((va.addr - kzero + kzero) % 2 ^ 64) = some va.addr
    rw [Option.some.injEq]
    omega

theorem claim_C8_witness :
    from_ptr_to_physaddr_offset_from_kzero 65536
      (physaddr_as_ptr_mut_offset_from_kzero 65536 ⟨4096⟩) = some ⟨4096⟩
    ∧ (from_virt_to_physaddr 65536 ⟨69632⟩).map
        (physaddr_as_ptr_mut_offset_from_kzero 65536) = some 69632 := by
  have h := claim_C8 65536 ⟨4096⟩ ⟨69632⟩
  exact ⟨h.1 (by decide), h.2 (by decide) (by decide)⟩

/-- C9: the bounding union of two well-formed ranges is itself well-formed
(`start <= end`), so its derived `size` equals `end - start` with no
underflow or wrap. -/
theorem claim_C9 (r1 r2 : PhysRange) (h1 : r1.start.addr ≤ r1.stop.addr)
    (h2 : r2.start.addr ≤ r2.stop.addr) (h3 : r1.stop.addr < 2 ^ 64)
    (h4 : r2.stop.addr < 2 ^ 64) :
    (r1.add r2).start.addr ≤ (r1.add r2).stop.addr
    ∧ (r1.add r2).size = (r1.add r2).stop.addr - (r1.add r2).start.addr := by
  constructor
  · show min r1.start.addr r2.start.addr ≤ max r1.stop.addr r2.stop.addr
    omega
  · show u64_wrapping_sub (max r1.stop.addr r2.stop.addr)
      (min r1.start.addr r2.start.addr)
      = max r1.stop.addr r2.stop.addr - min r1.start.addr r2.start.addr
    simp only [u64_wrapping_sub, U64_SIZE]
    omega

theorem claim_C9_witness :
    ((PhysRange.with_end 4096 8192).add (PhysRange.with_end 12288 16384)).start.addr
      ≤ ((PhysRange.with_end 4096 8192).add (PhysRange.with_end 12288 16384)).stop.addr
    ∧ ((PhysRange.with_end 4096 8192).add (PhysRange.with_end 12288 16384)).size
      = 12288 := by
  have h := claim_C9 (PhysRange.with_end 4096 8192) (PhysRange.with_end 12288 16384)
    (by decide) (by decide) (by decide) (by decide)
  exact ⟨h.1, by rw [h.2]; decide⟩

/-- C10: an empty range (`with_len(start, 0)`, and in particular a range
converted from a `RegBlock` whose length field is absent) rejects every
offset, including zero. -/
theorem claim_C10 (start : VirtAddr) (o : Nat) (rb : RegBlock) :
    (VirtRange.with_len start 0).offset_addr o = none
    ∧ (rb.len = none → (VirtRange.fromRegBlock rb).offset_addr o = none) := by
  constructor
  · simp only [VirtRange.with_len, VirtRange.offset_addr, VirtRange.contains,
      VirtAddr.add, U64_SIZE, Bool.and_eq_true, decide_eq_true_eq]
    rw [if_neg (by omega)]
  · intro h
    simp only [VirtRange.fromRegBlock, h, Option.getD_none, VirtRange.offset_addr,
      VirtRange.contains, VirtAddr.add, U64_SIZE, Bool.and_eq_true, decide_eq_true_eq]
    rw [if_neg (by omega)]

theorem claim_C10_witness :
    (VirtRange.with_len ⟨8192⟩ 0).offset_addr 0 = none
    ∧ (VirtRange.fromRegBlock ⟨8192, none⟩).offset_addr 0 = none := by
  have h := claim_C10 ⟨8192⟩ 0 ⟨8192, none⟩
  exact ⟨h.1, h.2 rfl⟩
